import Mathlib

/-!
Verification of the plan-compilation layer of the declarative-dataflow
query engine (files `src/plan/mod.rs` and `src/plan/pull.rs`).

The embedding models differential-dataflow collections as lists of
weighted tuples (tuple, signed multiplicity); dataflow operators become
list transformations, and every operation that can panic in the source
(unresolved names, out-of-range indexing, `unwrap` on an absent last
element) is modelled by an `Option` result, with `none` standing for the
fatal abort.
-/

/-- Attribute identifiers (`Aid` in the source) are strings. -/
abbrev Aid := String

/-- Entity identifiers (`Eid` in the source). -/
abbrev Eid := Nat

/-- Query variables (`Var` in the source): abstract identifiers. -/
abbrev Var := Nat

/-- Modelled from the spec: the `Value` type is not part of the two
source files (it is imported from the crate root); the spec describes it
as a closed tagged union of scalar kinds: entity identifier, attribute
identifier, and other primitive value kinds. -/
inductive Value where
  | Eid (e : Nat)
  | Aid (a : String)
  | VString (s : String)
  | VNumber (n : Int)
  | VBool (b : Bool)
deriving DecidableEq, Repr

/-- A differential-dataflow collection of tuples: a list of updates,
each a tuple together with its signed multiplicity. -/
abbrev Collection := List (List Value × Int)

/-- The accumulated multiplicity of a tuple in a collection. -/
def mult (c : Collection) (t : List Value) : Int :=
  (c.map (fun p => if p.1 = t then p.2 else 0)).sum

/-- `Collection::negate`: invert the sign of every multiplicity. -/
def cnegate (c : Collection) : Collection :=
  c.map (fun p => (p.1, -p.2))

/-- A per-record map over a collection where the per-tuple function may
abort (modelling a panicking closure inside a dataflow `map`). -/
def cmapM (f : List Value → Option (List Value)) : Collection → Option Collection
  | [] => some []
  | p :: ps =>
    match f p.1, cmapM f ps with
    | some t, some rest => some ((t, p.2) :: rest)
    | _, _ => none

/-- A per-record filter over a collection where the predicate may abort
(modelling a panicking closure inside a dataflow `filter`). -/
def cfilterM (φ : List Value → Option Bool) : Collection → Option Collection
  | [] => some []
  | p :: ps =>
    match φ p.1, cfilterM φ ps with
    | some b, some rest => some (if b then p :: rest else rest)
    | _, _ => none

/-- `interleave` body loop (`pull.rs` lines 55-66): iterate `i` over the
`rem` remaining indices, pushing `values[next_value]` on even `i` and
`Value::Aid(constants[next_const])` on odd `i`; an out-of-range index
access is `none`. -/
def interleaveLoop (values : List Value) (constants : List Aid) :
    Nat → Nat → Nat → Nat → Option (List Value)
  | 0, _, _, _ => some []
  | rem + 1, i, next_value, next_const =>
    if i % 2 == 0 then
      match values.get? next_value with
      | none => none
      | some v =>
        match interleaveLoop values constants rem (i + 1) (next_value + 1) next_const with
        | none => none
        | some rest => some (v :: rest)
    else
      match constants.get? next_const with
      | none => none
      | some a =>
        match interleaveLoop values constants rem (i + 1) next_value (next_const + 1) with
        | none => none
        | some rest => some (Value.Aid a :: rest)

/-- `interleave` (`pull.rs` lines 44-70): if either input is empty,
return the values unchanged; otherwise run the loop for
`values.len() + constants.len()` iterations. -/
def interleave (values : List Value) (constants : List Aid) : Option (List Value) :=
  if values.isEmpty || constants.isEmpty then
    some values
  else
    interleaveLoop values constants (values.length + constants.length) 0 0 0

mutual

/-- The query plan IR (`mod.rs` lines 75-108), restricted to the
variants whose compilation code is part of the two given source files:
the attribute patterns, the named references, negation, and the pull
variants. A `Pull` carries its `variables` (called `vars` here, since
`variables` is a reserved word in Lean) and its list of `PullLevel`
paths. -/
inductive Plan where
  | Negate (plan : Plan)
  | MatchA (sym1 : Var) (a : Aid) (sym2 : Var)
  | MatchEA (e : Eid) (a : Aid) (sym1 : Var)
  | MatchAV (sym1 : Var) (a : Aid) (v : Value)
  | RuleExpr (syms : List Var) (name : String)
  | NameExpr (syms : List Var) (name : String)
  | Pull (vars : List Var) (paths : List PullLevelQ)
  | PullLevel (path : PullLevelQ)

/-- The `PullLevel<Plan>` plan stage (`pull.rs` lines 18-28), with
fields `variables` (here `vars`), `plan`, `pull_attributes`,
`path_attributes`. -/
inductive PullLevelQ where
  | mk (vars : List Var) (plan : Plan)
      (pull_attributes : List Aid) (path_attributes : List Aid)

end

/-- The environment (`ImplContext`, `mod.rs` lines 34-55 and its use in
`pull.rs`): name lookups that may report absence.  A global arrangement
is modelled by the tuple collection it holds; a forward index by its
collection of (entity, value) records. -/
structure Context where
  global_arrangement : String → Option Collection
  forward_index : String → Option (List ((Value × Value) × Int))

/-- The `local_arrangements` map (`VariableMap`): locally named
relations, each modelled by its tuple collection. -/
abbrev Locals := String → Option Collection

/-- `SimpleRelation` / `CollectionRelation`: a symbol list paired with a
tuple collection. -/
structure SimpleRelation where
  symbols : List Var
  tuples : Collection
deriving DecidableEq

/-- `PullLevel::dependencies` (`pull.rs` lines 73-75): returns
`Dependencies::none()`, the empty dependency set, regardless of the
child plan. -/
def PullLevelQ.dependencies : PullLevelQ → List String := fun _ => []

/-- `Pull::dependencies` (`pull.rs` lines 175-177): returns
`Dependencies::none()`, the empty dependency set, regardless of the
paths. -/
def pullDependencies : List PullLevelQ → List String := fun _ => []

/-- `Plan::dependencies` (`mod.rs` lines 112-131), for the variants
modelled here: `Negate` passes through its child's dependencies, the
three attribute patterns return the empty set, `RuleExpr`/`NameExpr`
return the singleton of their referenced name, and the two pull
variants delegate to `PullLevel::dependencies` / `Pull::dependencies`
of `pull.rs`. -/
def Plan.dependencies : Plan → List String
  | .Negate plan => plan.dependencies
  | .MatchA _ _ _ => []
  | .MatchEA _ _ _ => []
  | .MatchAV _ _ _ => []
  | .RuleExpr _ name => [name]
  | .NameExpr _ name => [name]
  | .Pull _ paths => pullDependencies paths
  | .PullLevel path => path.dependencies

/-- `paths.map(|t| (t.last().unwrap().clone(), t)).arrange()`
(`pull.rs` line 125): key every input tuple by its last element;
the `unwrap` of an absent last element aborts. -/
def arrangeByLast : Collection → Option (List ((Value × List Value) × Int))
  | [] => some []
  | p :: ps =>
    match p.1.getLast?, arrangeByLast ps with
    | some k, some rest => some (((k, p.1), p.2) :: rest)
    | _, _ => none

/-- One path record joined against every index record with the same
key: each matching pair yields one output row built by the closure `f`,
with the multiplicities multiplied. -/
def joinRow (f : Value → List Value → Value → Option (List Value))
    (p : (Value × List Value) × Int) :
    List ((Value × Value) × Int) → Option Collection
  | [] => some []
  | q :: qs =>
    if q.1.1 = p.1.1 then
      match f p.1.1 p.1.2 q.1.2, joinRow f p qs with
      | some row, some rest => some ((row, p.2 * q.2) :: rest)
      | _, _ => none
    else
      joinRow f p qs

/-- `e_path.join_core(&e_v, ...)` (`pull.rs` lines 150-161): match path
records against forward-index records by key and apply the result
closure to every matching pair.  The closure may abort (its
`interleave` call can index out of range). -/
def joinCoreM (f : Value → List Value → Value → Option (List Value)) :
    List ((Value × List Value) × Int) → List ((Value × Value) × Int) → Option Collection
  | [], _ => some []
  | p :: ps, ev =>
    match joinRow f p ev, joinCoreM f ps ev with
    | some rows, some rest => some (rows ++ rest)
    | _, _ => none

/-- The per-attribute result streams of `PullLevel::implement`
(`pull.rs` lines 127-162): for each pull attribute, resolve its forward
index (abort if absent), join the path arrangement against it, and for
every match emit `interleave(path, path_attributes)` followed by the
attribute identifier and the retrieved value. -/
def pullStreams (e_path : List ((Value × List Value) × Int)) (ctx : Context)
    (path_attributes : List Aid) : List Aid → Option (List Collection)
  | [] => some []
  | a :: rest =>
    match ctx.forward_index a with
    | none => none
    | some e_v =>
      match
        joinCoreM
          (fun _e path v =>
            match interleave path path_attributes with
            | none => none
            | some res => some (res ++ [Value.Aid a, v]))
          e_path e_v,
        pullStreams e_path ctx path_attributes rest
      with
      | some s, some ss => some (s :: ss)
      | _, _ => none

mutual

/-- `Plan::implement` (`mod.rs` lines 133-246) together with
`PullLevel::implement` (`pull.rs` lines 77-171) and `Pull::implement`
(`pull.rs` lines 179-203).  A `panic!` (unresolved name, out-of-range
index, failed `unwrap`) is modelled by `none`. -/
def Plan.implement : Plan → Context → Locals → Option SimpleRelation
  | .Negate plan, ctx, locals =>
    match plan.implement ctx locals with
    | none => none
    | some rel => some ⟨rel.symbols, cnegate rel.tuples⟩
  | .MatchA sym1 a sym2, ctx, _ =>
    match ctx.global_arrangement a with
    | none => none
    | some tuples => some ⟨[sym1, sym2], tuples⟩
  | .MatchEA e a sym1, ctx, _ =>
    match ctx.global_arrangement a with
    | none => none
    | some tuples =>
      match cfilterM (fun t => (t.get? 0).map (fun v0 => v0 == Value.Eid e)) tuples with
      | none => none
      | some filtered =>
        match cmapM (fun t => (t.get? 1).map (fun v1 => [v1])) filtered with
        | none => none
        | some mapped => some ⟨[sym1], mapped⟩
  | .MatchAV sym1 a v, ctx, _ =>
    match ctx.global_arrangement a with
    | none => none
    | some tuples =>
      match cfilterM (fun t => (t.get? 1).map (fun v1 => v1 == v)) tuples with
      | none => none
      | some filtered =>
        match cmapM (fun t => (t.get? 0).map (fun v0 => [v0])) filtered with
        | none => none
        | some mapped => some ⟨[sym1], mapped⟩
  | .RuleExpr syms name, _, locals =>
    match locals name with
    | none => none
    | some named => some ⟨syms, named⟩
  | .NameExpr syms name, ctx, _ =>
    match ctx.global_arrangement name with
    | none => none
    | some named => some ⟨syms, named⟩
  | .Pull _ paths, ctx, locals =>
    match implementPathList paths ctx locals with
    | none => none
    | some rels => some ⟨[], (rels.map SimpleRelation.tuples).flatten⟩
  | .PullLevel (.mk _ plan pull_attributes path_attributes), ctx, locals =>
    match plan.implement ctx locals with
    | none => none
    | some input =>
      if pull_attributes.isEmpty then
        if path_attributes.isEmpty then
          some input
        else
          match cmapM (fun t => interleave t path_attributes) input.tuples with
          | none => none
          | some tuples => some ⟨[], tuples⟩
      else
        match arrangeByLast input.tuples with
        | none => none
        | some e_path =>
          match pullStreams e_path ctx path_attributes pull_attributes with
          | none => none
          | some streams => some ⟨[], streams.flatten⟩
termination_by p _ _ => sizeOf p
decreasing_by
  all_goals simp_wf
  all_goals omega

/-- `Pull::implement`'s iteration over its paths (`pull.rs` lines
191-195): implement each `PullLevel` path in turn (any abort aborts the
whole compilation). -/
def implementPathList : List PullLevelQ → Context → Locals → Option (List SimpleRelation)
  | [], _, _ => some []
  | path :: rest, ctx, locals =>
    match Plan.implement (.PullLevel path) ctx locals, implementPathList rest ctx locals with
    | some r, some rs => some (r :: rs)
    | _, _ => none
termination_by l _ _ => sizeOf l
decreasing_by
  all_goals simp_wf
  all_goals (have h : 0 < sizeOf rest := by cases rest <;> simp_arith
             omega)

end

/-- The explicit alternating sequence `[v0, a0, v1, a1, ...]`; used only
to characterize the output of the `interleave` loop in the proofs
below (the claim theorems themselves speak about `interleave`). -/
def altList : List Value → List Aid → List Value
  | [], _ => []
  | v :: vs, [] => v :: vs
  | v :: vs, a :: cs => v :: Value.Aid a :: altList vs cs

/-- An environment with no registered names at all. -/
def ctxNone : Context := ⟨fun _ => none, fun _ => none⟩

/-- An empty local-relation map. -/
def localsNone : Locals := fun _ => none

/-- Fixture for the pull-level scenario of the spec: a global relation
`input` holding the single-column entity tuple `[e1]`, and a forward
index for attribute `name` mapping `e1` to the string `Alice`. -/
def ctxAlice : Context :=
  ⟨fun n => if n = "input" then some [([Value.Eid 1], 1)] else none,
   fun n => if n = "name" then some [((Value.Eid 1, Value.VString "Alice"), 1)] else none⟩

/-- Fixture: a single global relation `base` with one one-column tuple
(and no forward indices). -/
def ctxBase : Context :=
  ⟨fun n => if n = "base" then some [([Value.Eid 1], 1)] else none, fun _ => none⟩

/-- Fixture: a global relation `badinput` containing an empty tuple,
and a forward index for `name`; used to exhibit the abort of the
`last().unwrap()` keying step. -/
def ctxBad : Context :=
  ⟨fun n => if n = "badinput" then some [([], 1)] else none,
   fun n => if n = "name" then some [((Value.Eid 1, Value.VString "Alice"), 1)] else none⟩

/-- Fixture: a global relation `pairs` holding two-column [e v] tuples,
as a base attribute relation. -/
def ctxPairs : Context :=
  ⟨fun n => if n = "pairs" then
      some [([Value.Eid 1, Value.VString "x"], 1),
            ([Value.Eid 2, Value.VString "y"], 2),
            ([Value.Eid 1, Value.VString "y"], 1)]
    else none,
   fun _ => none⟩

example : interleave [] ["a"] = some [] := by decide
example : interleave [Value.Eid 1] [] = some [Value.Eid 1] := by decide
example : interleave [Value.Eid 1, Value.Eid 2] ["a"] =
    some [Value.Eid 1, Value.Aid "a", Value.Eid 2] := by decide

theorem mult_append (c1 c2 : Collection) (t : List Value) :
    mult (c1 ++ c2) t = mult c1 t + mult c2 t := by
  simp [mult]

theorem mult_flatten (cs : List Collection) (t : List Value) :
    mult cs.flatten t = (cs.map (fun c => mult c t)).sum := by
  induction cs with
  | nil => simp [mult]
  | cons c rest ih => simp [List.flatten_cons, mult_append, ih]

theorem mult_cnegate (c : Collection) (t : List Value) :
    mult (cnegate c) t = - mult c t := by
  induction c with
  | nil => simp [mult, cnegate]
  | cons p ps ih =>
    simp only [mult, cnegate, List.map_cons, List.sum_cons] at ih ⊢
    split <;> omega

/-- Claim C1 (counterexample): a `PullLevel` whose child plan is
`RuleExpr(_, "r")` has an empty dependency list, which does not contain
the referenced name `"r"`; the claim states that it must. -/
theorem dependencies_pullLevel_counterexample :
    ¬ ("r" ∈ (Plan.PullLevel (.mk [] (.RuleExpr [] "r") [] [])).dependencies) := by
  simp [Plan.dependencies, PullLevelQ.dependencies]

/-- Claim C1 (amended): `dependencies()` of the variants in the given
source behaves as follows: `Negate` passes its child's dependencies
through; the three attribute patterns return the empty set;
`RuleExpr`/`NameExpr` return exactly the singleton of their referenced
name; but `Pull` and `PullLevel` return the empty set regardless of
their sub-plans, so a `PullLevel` or `Pull` whose child plan is a
`RuleExpr` or `NameExpr` does not report the referenced name. -/
theorem dependencies_characterization :
    (∀ p, (Plan.Negate p).dependencies = p.dependencies) ∧
    (∀ s1 a s2, (Plan.MatchA s1 a s2).dependencies = []) ∧
    (∀ e a s, (Plan.MatchEA e a s).dependencies = []) ∧
    (∀ s a v, (Plan.MatchAV s a v).dependencies = []) ∧
    (∀ syms n, (Plan.RuleExpr syms n).dependencies = [n]) ∧
    (∀ syms n, (Plan.NameExpr syms n).dependencies = [n]) ∧
    (∀ vs paths, (Plan.Pull vs paths).dependencies = []) ∧
    (∀ path, (Plan.PullLevel path).dependencies = []) :=
  ⟨fun _ => rfl, fun _ _ _ => rfl, fun _ _ _ => rfl, fun _ _ _ => rfl,
   fun _ _ => rfl, fun _ _ => rfl, fun _ _ => rfl, fun _ => rfl⟩

/-- Claim C8: implementing `Negate(p)` keeps the symbol list of `p`'s
relation and inverts the sign of every tuple's multiplicity without
filtering rows; `Negate(Negate(p))` restores the original symbol list
and multiplicities. -/
theorem negate_inverts (p : Plan) (ctx : Context) (locals : Locals)
    (rel : SimpleRelation) (h : p.implement ctx locals = some rel) :
    Plan.implement (.Negate p) ctx locals = some ⟨rel.symbols, cnegate rel.tuples⟩ ∧
    (∀ t, mult (cnegate rel.tuples) t = - mult rel.tuples t) ∧
    Plan.implement (.Negate (.Negate p)) ctx locals =
      some ⟨rel.symbols, cnegate (cnegate rel.tuples)⟩ ∧
    (∀ t, mult (cnegate (cnegate rel.tuples)) t = mult rel.tuples t) := by
  have h1 : Plan.implement (.Negate p) ctx locals =
      some ⟨rel.symbols, cnegate rel.tuples⟩ := by
    simp [Plan.implement, h]
  refine ⟨h1, fun t => mult_cnegate rel.tuples t, ?_, fun t => by
    rw [mult_cnegate, mult_cnegate]; ring⟩
  simp [Plan.implement, h1]

/-- Witness for C8 at a concrete plan and environment. -/
theorem negate_inverts_witness :
    Plan.implement (.Negate (.NameExpr [0] "base")) ctxBase localsNone =
      some ⟨[0], cnegate [([Value.Eid 1], 1)]⟩ ∧
    mult (cnegate (cnegate [([Value.Eid 1], 1)])) [Value.Eid 1] =
      mult ([([Value.Eid 1], 1)] : Collection) [Value.Eid 1] := by
  have h := negate_inverts (.NameExpr [0] "base") ctxBase localsNone
    ⟨[0], [([Value.Eid 1], 1)]⟩ (by simp [Plan.implement, ctxBase])
  exact ⟨h.1, h.2.2.2 [Value.Eid 1]⟩

theorem implementPathList_get (paths : List PullLevelQ) (ctx : Context) (locals : Locals)
    (rels : List SimpleRelation) (h : implementPathList paths ctx locals = some rels) :
    rels.length = paths.length ∧
    ∀ i path r, paths.get? i = some path → rels.get? i = some r →
      Plan.implement (.PullLevel path) ctx locals = some r := by
  induction paths generalizing rels with
  | nil =>
    simp only [implementPathList] at h
    injection h with h
    subst h
    exact ⟨rfl, by intro i path r hp; simp at hp⟩
  | cons p ps ih =>
    simp only [implementPathList] at h
    cases h1 : Plan.implement (.PullLevel p) ctx locals with
    | none => rw [h1] at h; cases h
    | some r0 =>
      cases h2 : implementPathList ps ctx locals with
      | none => rw [h1, h2] at h; cases h
      | some rs0 =>
        rw [h1, h2] at h
        injection h with h
        subst h
        obtain ⟨hlen, hget⟩ := ih rs0 h2
        refine ⟨by simp [hlen], ?_⟩
        intro i path r hp hr
        cases i with
        | zero =>
          simp only [List.get?] at hp hr
          injection hp with hp
          injection hr with hr
          subst hp; subst hr
          exact h1
        | succ n =>
          simp only [List.get?] at hp hr
          exact hget n path r hp hr

/-- Claim C7: implementing a `Pull` node yields symbol list unset and,
as tuples, exactly the concatenation of the streams obtained by
implementing each constituent `PullLevel` path; at the multiset level
every tuple's multiplicity is the sum of its per-path multiplicities
(order-independent), with no further join, filter or deduplication. -/
theorem pull_concatenates_paths (vs : List Var) (paths : List PullLevelQ)
    (ctx : Context) (locals : Locals) (rels : List SimpleRelation)
    (h : implementPathList paths ctx locals = some rels) :
    Plan.implement (.Pull vs paths) ctx locals =
      some ⟨[], (rels.map SimpleRelation.tuples).flatten⟩ ∧
    (∀ t, mult (rels.map SimpleRelation.tuples).flatten t =
      (rels.map (fun r => mult r.tuples t)).sum) ∧
    rels.length = paths.length ∧
    (∀ i path r, paths.get? i = some path → rels.get? i = some r →
      Plan.implement (.PullLevel path) ctx locals = some r) := by
  obtain ⟨hlen, hget⟩ := implementPathList_get paths ctx locals rels h
  refine ⟨by simp [Plan.implement, h], fun t => ?_, hlen, hget⟩
  rw [mult_flatten, List.map_map]
  rfl

/-- Witness for C7: two paths over the `Alice` fixture, one pulling
`name`, one passing the entity through; the output is the two-row
concatenation. -/
theorem pull_concatenates_paths_witness :
    Plan.implement (.Pull [] [.mk [] (.NameExpr [0] "input") ["name"] [],
      .mk [] (.NameExpr [0] "input") [] []]) ctxAlice localsNone =
      some ⟨[], [([Value.Eid 1, Value.Aid "name", Value.VString "Alice"], 1),
                 ([Value.Eid 1], 1)]⟩ := by
  have h := pull_concatenates_paths []
    [.mk [] (.NameExpr [0] "input") ["name"] [], .mk [] (.NameExpr [0] "input") [] []]
    ctxAlice localsNone
    [⟨[], [([Value.Eid 1, Value.Aid "name", Value.VString "Alice"], 1)]⟩,
     ⟨[0], [([Value.Eid 1], 1)]⟩]
    (by simp [implementPathList, Plan.implement, ctxAlice, localsNone,
              arrangeByLast, pullStreams, joinCoreM, joinRow, interleave])
  exact h.1.trans (by simp)

theorem pullStreams_missing (e_path : List ((Value × List Value) × Int))
    (ctx : Context) (pas : List Aid) :
    ∀ (attrs : List Aid) (a : Aid), a ∈ attrs → ctx.forward_index a = none →
      pullStreams e_path ctx pas attrs = none := by
  intro attrs
  induction attrs with
  | nil => intro a ha; cases ha
  | cons b rest ih =>
    intro a ha hnone
    rcases List.mem_cons.mp ha with h | h
    · subst h
      simp [pullStreams, hnone]
    · cases hb : ctx.forward_index b with
      | none => simp [pullStreams, hb]
      | some ev =>
        cases hj : joinCoreM (fun _e path v =>
            match interleave path pas with
            | none => none
            | some res => some (res ++ [Value.Aid b, v])) e_path ev with
        | none => simp [pullStreams, hb, hj]
        | some s => simp [pullStreams, hb, hj, ih a h hnone]

/-- Claim C6: implementing an attribute pattern whose attribute is not
in the environment, a `RuleExpr` whose name is not a local relation, a
`NameExpr` whose name is not a global arrangement, or a `PullLevel`
pulling an attribute with no registered forward index, aborts
compilation (`none`), never producing a relation. -/
theorem unresolved_names_fatal (ctx : Context) (locals : Locals) :
    (∀ s1 a s2, ctx.global_arrangement a = none →
      Plan.implement (.MatchA s1 a s2) ctx locals = none) ∧
    (∀ e a s1, ctx.global_arrangement a = none →
      Plan.implement (.MatchEA e a s1) ctx locals = none) ∧
    (∀ s1 a v, ctx.global_arrangement a = none →
      Plan.implement (.MatchAV s1 a v) ctx locals = none) ∧
    (∀ syms n, locals n = none →
      Plan.implement (.RuleExpr syms n) ctx locals = none) ∧
    (∀ syms n, ctx.global_arrangement n = none →
      Plan.implement (.NameExpr syms n) ctx locals = none) ∧
    (∀ vs plan pulls pas a, a ∈ pulls → ctx.forward_index a = none →
      Plan.implement (.PullLevel (.mk vs plan pulls pas)) ctx locals = none) := by
  refine ⟨fun s1 a s2 h => by simp [Plan.implement, h],
          fun e a s1 h => by simp [Plan.implement, h],
          fun s1 a v h => by simp [Plan.implement, h],
          fun syms n h => by simp [Plan.implement, h],
          fun syms n h => by simp [Plan.implement, h],
          ?_⟩
  intro vs plan pulls pas a ha hnone
  have hne : pulls.isEmpty = false := by
    cases pulls
    · cases ha
    · rfl
  cases hp : plan.implement ctx locals with
  | none => simp [Plan.implement, hp]
  | some input =>
    cases harr : arrangeByLast input.tuples with
    | none => simp [Plan.implement, hp, hne, harr]
    | some ep =>
      simp [Plan.implement, hp, hne, harr,
            pullStreams_missing ep ctx pas pulls a ha hnone]

/-- Witness for C6 at concrete empty environments. -/
theorem unresolved_names_fatal_witness :
    Plan.implement (.MatchA 0 "missing" 1) ctxNone localsNone = none ∧
    Plan.implement (.MatchEA 1 "missing" 0) ctxNone localsNone = none ∧
    Plan.implement (.MatchAV 0 "missing" (Value.VBool true)) ctxNone localsNone = none ∧
    Plan.implement (.RuleExpr [] "r") ctxNone localsNone = none ∧
    Plan.implement (.NameExpr [] "q") ctxNone localsNone = none ∧
    Plan.implement (.PullLevel (.mk [] (.NameExpr [0] "base") ["missing"] []))
      ctxBase localsNone = none := by
  refine ⟨(unresolved_names_fatal ctxNone localsNone).1 0 "missing" 1 rfl,
          (unresolved_names_fatal ctxNone localsNone).2.1 1 "missing" 0 rfl,
          (unresolved_names_fatal ctxNone localsNone).2.2.1 0 "missing" (Value.VBool true) rfl,
          (unresolved_names_fatal ctxNone localsNone).2.2.2.1 [] "r" rfl,
          (unresolved_names_fatal ctxNone localsNone).2.2.2.2.1 [] "q" rfl,
          (unresolved_names_fatal ctxBase localsNone).2.2.2.2.2 [] (.NameExpr [0] "base")
            ["missing"] [] "missing" (by simp) rfl⟩

/-- Claim C9 (counterexample): a `PullLevel` with empty
`pull_attributes` and empty `path_attributes` passes its child relation
through unchanged, symbol list included: with child
`NameExpr([7], "base")` the output symbol list is `[7]`, not the empty
list the claim requires for every `PullLevel`. -/
theorem pull_symbols_counterexample :
    Plan.implement (.PullLevel (.mk [] (.NameExpr [7] "base") [] []))
      ctxBase localsNone = some ⟨[7], [([Value.Eid 1], 1)]⟩ ∧
    ([7] : List Var) ≠ [] := by
  constructor
  · simp [Plan.implement, ctxBase]
  · simp

/-- Claim C9 (amended): the relation implemented for a `PullLevel` with
non-empty `pull_attributes`, for a `PullLevel` with empty
`pull_attributes` but non-empty `path_attributes`, and for a `Pull`
carries the unset (empty) symbol list; but a `PullLevel` with both
attribute lists empty returns its child's relation unchanged, its
(possibly non-empty) symbol list included. -/
theorem pull_symbols_unset :
    (∀ vs plan a pulls pas ctx locals out,
      Plan.implement (.PullLevel (.mk vs plan (a :: pulls) pas)) ctx locals = some out →
      out.symbols = []) ∧
    (∀ vs plan b pas ctx locals out,
      Plan.implement (.PullLevel (.mk vs plan [] (b :: pas))) ctx locals = some out →
      out.symbols = []) ∧
    (∀ vs paths ctx locals out,
      Plan.implement (.Pull vs paths) ctx locals = some out →
      out.symbols = []) ∧
    (∀ vs plan ctx locals,
      Plan.implement (.PullLevel (.mk vs plan [] [])) ctx locals =
        plan.implement ctx locals) := by
  refine ⟨?_, ?_, ?_, ?_⟩
  · intro vs plan a pulls pas ctx locals out h
    cases hp : plan.implement ctx locals with
    | none => rw [Plan.implement, hp] at h; cases h
    | some input =>
      cases harr : arrangeByLast input.tuples with
      | none => simp [Plan.implement, hp, harr] at h
      | some ep =>
        cases hps : pullStreams ep ctx pas (a :: pulls) with
        | none => simp [Plan.implement, hp, harr, hps] at h
        | some streams =>
          simp [Plan.implement, hp, harr, hps] at h
          rw [← h]
  · intro vs plan b pas ctx locals out h
    cases hp : plan.implement ctx locals with
    | none => rw [Plan.implement, hp] at h; cases h
    | some input =>
      cases hm : cmapM (fun t => interleave t (b :: pas)) input.tuples with
      | none => simp [Plan.implement, hp, hm] at h
      | some tuples =>
        simp [Plan.implement, hp, hm] at h
        rw [← h]
  · intro vs paths ctx locals out h
    cases hl : implementPathList paths ctx locals with
    | none => rw [Plan.implement, hl] at h; cases h
    | some rels =>
      simp [Plan.implement, hl] at h
      rw [← h]
  · intro vs plan ctx locals
    cases hp : plan.implement ctx locals with
    | none => simp [Plan.implement, hp]
    | some input => simp [Plan.implement, hp]

/-- Witness for C9 at the `Alice` fixture: the pull-level output
relation has the empty symbol list. -/
theorem pull_symbols_unset_witness :
    (⟨[], [([Value.Eid 1, Value.Aid "name", Value.VString "Alice"], 1)]⟩ :
      SimpleRelation).symbols = ([] : List Var) :=
  pull_symbols_unset.1 [] (.NameExpr [0] "input") "name" [] [] ctxAlice localsNone _
    (by simp [Plan.implement, ctxAlice, localsNone, arrangeByLast,
              pullStreams, joinCoreM, joinRow, interleave])

theorem get_of_drop_cons {α : Type} (L : List α) (k : Nat) (x : α) (xs : List α)
    (h : L.drop k = x :: xs) : L[k]? = some x := by
  have h1 : (L.drop k)[0]? = some x := by rw [h]; simp
  rw [List.getElem?_drop] at h1
  simpa using h1

theorem drop_of_drop_cons {α : Type} (L : List α) (k : Nat) (x : α) (xs : List α)
    (h : L.drop k = x :: xs) : L.drop (k + 1) = xs := by
  have h2 : (L.drop k).drop 1 = L.drop (k + 1) := by rw [List.drop_drop]
  rw [← h2, h]
  rfl

theorem interleaveLoop_altList (V : List Value) (C : List Aid) :
    ∀ (cs : List Aid) (vs : List Value) (k : Nat),
      V.drop k = vs → C.drop k = cs →
      (vs.length = cs.length ∨ vs.length = cs.length + 1) →
      interleaveLoop V C (vs.length + cs.length) (2 * k) k k = some (altList vs cs) := by
  intro cs
  induction cs with
  | nil =>
    intro vs k hV hC hlen
    rcases hlen with h0 | h1
    · have hnil : vs = [] := List.length_eq_zero.mp (by simpa using h0)
      subst hnil
      simp [interleaveLoop, altList]
    · match vs, h1 with
      | [v], _ =>
        have hget : V[k]? = some v := get_of_drop_cons V k v [] hV
        have hmod : (2 * k) % 2 = 0 := by omega
        simp [interleaveLoop, hmod, hget, altList]
  | cons a cs2 ih =>
    intro vs k hV hC hlen
    match vs, hlen with
    | v :: vs2, hlen =>
      have hgetV : V[k]? = some v := get_of_drop_cons V k v vs2 hV
      have hgetC : C[k]? = some a := get_of_drop_cons C k a cs2 hC
      have hV2 : V.drop (k + 1) = vs2 := drop_of_drop_cons V k v vs2 hV
      have hC2 : C.drop (k + 1) = cs2 := drop_of_drop_cons C k a cs2 hC
      have hlen2 : vs2.length = cs2.length ∨ vs2.length = cs2.length + 1 := by
        rcases hlen with h | h <;> simp at h <;> omega
      have hrec := ih vs2 (k + 1) hV2 hC2 hlen2
      have hm1 : (2 * k) % 2 = 0 := by omega
      have hm2 : (2 * k + 1) % 2 = 1 := by omega
      have e2 : 2 * k + 1 + 1 = 2 * (k + 1) := by omega
      have e1 : (v :: vs2).length + (a :: cs2).length =
          (vs2.length + cs2.length + 1) + 1 := by
        simp [List.length_cons]
        omega
      rw [e1]
      simp only [interleaveLoop, hm1, hm2, e2, hrec, altList]
      simp [hgetV, hgetC]

theorem interleave_altList (vs : List Value) (cs : List Aid)
    (h : vs.length = cs.length ∨ vs.length = cs.length + 1) :
    interleave vs cs = some (altList vs cs) := by
  cases vs with
  | nil => simp [interleave, altList]
  | cons v vs2 =>
    cases cs with
    | nil => simp [interleave, altList]
    | cons a cs2 =>
      have hloop := interleaveLoop_altList (v :: vs2) (a :: cs2) (a :: cs2) (v :: vs2) 0
        (by simp) (by simp) h
      simpa [interleave] using hloop

theorem altList_length :
    ∀ (cs : List Aid) (vs : List Value),
      (vs.length = cs.length ∨ vs.length = cs.length + 1) →
      (altList vs cs).length = vs.length + cs.length := by
  intro cs
  induction cs with
  | nil => intro vs h; cases vs <;> simp [altList]
  | cons a cs2 ih =>
    intro vs h
    cases vs with
    | nil => simp at h
    | cons v vs2 =>
      have h2 : vs2.length = cs2.length ∨ vs2.length = cs2.length + 1 := by
        rcases h with h | h <;> simp at h <;> omega
      have hrec := ih vs2 h2
      simp only [altList, List.length_cons, hrec]
      omega

theorem altList_get_even :
    ∀ (cs : List Aid) (vs : List Value) (i : Nat), i < vs.length →
      (vs.length = cs.length ∨ vs.length = cs.length + 1) →
      (altList vs cs).get? (2 * i) = vs.get? i := by
  intro cs
  induction cs with
  | nil =>
    intro vs i hi h
    have hi0 : i = 0 := by
      rcases h with h | h <;> simp only [List.length_nil] at h <;> omega
    subst hi0
    cases vs with
    | nil => simp at hi
    | cons v vs2 => simp [altList]
  | cons a cs2 ih =>
    intro vs i hi h
    cases vs with
    | nil => simp at hi
    | cons v vs2 =>
      have h2 : vs2.length = cs2.length ∨ vs2.length = cs2.length + 1 := by
        rcases h with h | h <;> simp at h <;> omega
      cases i with
      | zero => simp [altList]
      | succ n =>
        have e : 2 * (n + 1) = 2 * n + 1 + 1 := by omega
        rw [e]
        simp only [altList, List.get?_cons_succ]
        exact ih vs2 n (by simp at hi; omega) h2

theorem altList_get_odd :
    ∀ (cs : List Aid) (vs : List Value) (j : Nat), j < cs.length →
      (vs.length = cs.length ∨ vs.length = cs.length + 1) →
      (altList vs cs).get? (2 * j + 1) = (cs.get? j).map Value.Aid := by
  intro cs
  induction cs with
  | nil => intro vs j hj; simp at hj
  | cons a cs2 ih =>
    intro vs j hj h
    cases vs with
    | nil =>
      rcases h with h | h <;> simp only [List.length_nil, List.length_cons] at h <;> omega
    | cons v vs2 =>
      have h2 : vs2.length = cs2.length ∨ vs2.length = cs2.length + 1 := by
        rcases h with h | h <;> simp at h <;> omega
      cases j with
      | zero => simp [altList]
      | succ n =>
        have e : 2 * (n + 1) + 1 = 2 * n + 1 + 1 + 1 := by omega
        rw [e]
        simp only [altList, List.get?_cons_succ]
        exact ih vs2 n (by simp at hj; omega) h2

/-- Claim C3: `interleave([], attrs)` returns the (empty) values
unchanged; `interleave(values, [])` returns the values unchanged; and
for non-empty inputs whose value count equals the attribute count or
exceeds it by one, the output has length `len(values) + len(attrs)`,
its even positions reproduce the values in order, and its odd positions
reproduce the attributes in order, each wrapped as `Value::Aid`. -/
theorem interleave_shape :
    (∀ cs, interleave [] cs = some []) ∧
    (∀ vs, interleave vs [] = some vs) ∧
    (∀ vs cs, vs ≠ [] → cs ≠ [] →
      (vs.length = cs.length ∨ vs.length = cs.length + 1) →
      ∃ out, interleave vs cs = some out ∧
        out.length = vs.length + cs.length ∧
        (∀ i, i < vs.length → out.get? (2 * i) = vs.get? i) ∧
        (∀ j, j < cs.length → out.get? (2 * j + 1) = (cs.get? j).map Value.Aid)) := by
  refine ⟨fun cs => by simp [interleave], fun vs => by simp [interleave], ?_⟩
  intro vs cs hv hc h
  exact ⟨altList vs cs, interleave_altList vs cs h, altList_length cs vs h,
         fun i hi => altList_get_even cs vs i hi h,
         fun j hj => altList_get_odd cs vs j hj h⟩

/-- Witness for C3 at `values = [e1, e2]`, `attrs = ["a"]`. -/
theorem interleave_shape_witness :
    ∃ out, interleave [Value.Eid 1, Value.Eid 2] ["a"] = some out ∧
      out.length = [Value.Eid 1, Value.Eid 2].length + (["a"] : List Aid).length ∧
      (∀ i, i < [Value.Eid 1, Value.Eid 2].length →
        out.get? (2 * i) = [Value.Eid 1, Value.Eid 2].get? i) ∧
      (∀ j, j < (["a"] : List Aid).length →
        out.get? (2 * j + 1) = ((["a"] : List Aid).get? j).map Value.Aid) :=
  interleave_shape.2.2 [Value.Eid 1, Value.Eid 2] ["a"]
    (by simp) (by simp) (by simp)

/-- Claim C4: `interleave` performs no out-of-range index access when
the value count equals the attribute count or exceeds it by one (the
result is defined), and for inputs violating this precondition an index
access goes out of range (the modelled computation aborts): with three
values and one attribute, and with one value and two attributes. -/
theorem interleave_inbounds :
    (∀ vs cs, (vs.length = cs.length ∨ vs.length = cs.length + 1) →
      (interleave vs cs).isSome = true) ∧
    interleave [Value.Eid 1, Value.Eid 2, Value.Eid 3] ["a"] = none ∧
    interleave [Value.Eid 1] ["a", "b"] = none := by
  refine ⟨?_, by decide, by decide⟩
  intro vs cs h
  rw [interleave_altList vs cs h]
  rfl

/-- Witness for C4 at `values = [e1, e2]`, `attrs = ["a"]`. -/
theorem interleave_inbounds_witness :
    (interleave [Value.Eid 1, Value.Eid 2] ["a"]).isSome = true :=
  interleave_inbounds.1 [Value.Eid 1, Value.Eid 2] ["a"] (by simp)

theorem get?_eq_some_getD {α : Type} (l : List α) (n : Nat) (d : α)
    (h : n < l.length) : l.get? n = some (l.getD n d) := by
  rw [List.getD_eq_getElem?_getD, List.get?_eq_getElem?, List.getElem?_eq_getElem h]
  rfl

theorem cfilterM_eq (φ : List Value → Option Bool) (ψ : List Value → Bool)
    (c : Collection) (h : ∀ p ∈ c, φ p.1 = some (ψ p.1)) :
    cfilterM φ c = some (c.filter (fun p => ψ p.1)) := by
  induction c with
  | nil => simp [cfilterM]
  | cons p ps ih =>
    have hp := h p (by simp)
    have hps : ∀ q ∈ ps, φ q.1 = some (ψ q.1) := fun q hq => h q (by simp [hq])
    by_cases hb : ψ p.1 = true <;>
      simp [cfilterM, hp, ih hps, List.filter_cons, hb]

theorem cmapM_eq (f : List Value → Option (List Value)) (g : List Value → List Value)
    (c : Collection) (h : ∀ p ∈ c, f p.1 = some (g p.1)) :
    cmapM f c = some (c.map (fun p => (g p.1, p.2))) := by
  induction c with
  | nil => simp [cmapM]
  | cons p ps ih =>
    have hp := h p (by simp)
    have hps : ∀ q ∈ ps, f q.1 = some (g q.1) := fun q hq => h q (by simp [hq])
    simp [cmapM, hp, ih hps]

/-- Claim C5: against a resolvable attribute whose base tuples are
`[entity, value]` pairs, `MatchEA(e, a, ?v)` keeps exactly the tuples
whose first element is `Eid e` and projects each to the one-element
tuple of its value; `MatchAV(?e, a, v)` keeps exactly the tuples whose
second element is `v` and projects each to the one-element tuple of its
entity; `MatchA(?e, a, ?v)` passes every tuple through unfiltered; and
the output symbol lists are `[?e, ?v]`, `[?v]`, `[?e]` respectively —
exactly the free variables in source order. -/
theorem match_patterns_implement (ctx : Context) (locals : Locals)
    (a : Aid) (base : Collection)
    (hbase : ctx.global_arrangement a = some base)
    (hlen : ∀ p ∈ base, 2 ≤ p.1.length) :
    (∀ sym1 sym2, Plan.implement (.MatchA sym1 a sym2) ctx locals =
      some ⟨[sym1, sym2], base⟩) ∧
    (∀ e sym1, Plan.implement (.MatchEA e a sym1) ctx locals =
      some ⟨[sym1],
        (base.filter (fun p => p.1.getD 0 (Value.Eid 0) == Value.Eid e)).map
          (fun p => ([p.1.getD 1 (Value.Eid 0)], p.2))⟩) ∧
    (∀ sym1 v, Plan.implement (.MatchAV sym1 a v) ctx locals =
      some ⟨[sym1],
        (base.filter (fun p => p.1.getD 1 (Value.Eid 0) == v)).map
          (fun p => ([p.1.getD 0 (Value.Eid 0)], p.2))⟩) := by
  refine ⟨fun sym1 sym2 => by simp [Plan.implement, hbase], ?_, ?_⟩
  · intro e sym1
    have hfil := cfilterM_eq
      (fun t => (t.get? 0).map (fun v0 => v0 == Value.Eid e))
      (fun t => t.getD 0 (Value.Eid 0) == Value.Eid e) base
      (fun p hp => by
        have hg := get?_eq_some_getD p.1 0 (Value.Eid 0) (by have := hlen p hp; omega)
        show Option.map (fun v0 => v0 == Value.Eid e) (p.1.get? 0) =
          some (p.1.getD 0 (Value.Eid 0) == Value.Eid e)
        rw [hg]
        rfl)
    have hmap := cmapM_eq
      (fun t => (t.get? 1).map (fun v1 => [v1]))
      (fun t => [t.getD 1 (Value.Eid 0)])
      (base.filter (fun p => p.1.getD 0 (Value.Eid 0) == Value.Eid e))
      (fun p hp => by
        have hmem : p ∈ base := List.mem_of_mem_filter hp
        have hg := get?_eq_some_getD p.1 1 (Value.Eid 0) (by have := hlen p hmem; omega)
        show Option.map (fun v1 => [v1]) (p.1.get? 1) =
          some [p.1.getD 1 (Value.Eid 0)]
        rw [hg]
        rfl)
    simp only [Plan.implement, hbase, hfil, hmap]
  · intro sym1 v
    have hfil := cfilterM_eq
      (fun t => (t.get? 1).map (fun v1 => v1 == v))
      (fun t => t.getD 1 (Value.Eid 0) == v) base
      (fun p hp => by
        have hg := get?_eq_some_getD p.1 1 (Value.Eid 0) (by have := hlen p hp; omega)
        show Option.map (fun v1 => v1 == v) (p.1.get? 1) =
          some (p.1.getD 1 (Value.Eid 0) == v)
        rw [hg]
        rfl)
    have hmap := cmapM_eq
      (fun t => (t.get? 0).map (fun v0 => [v0]))
      (fun t => [t.getD 0 (Value.Eid 0)])
      (base.filter (fun p => p.1.getD 1 (Value.Eid 0) == v))
      (fun p hp => by
        have hmem : p ∈ base := List.mem_of_mem_filter hp
        have hg := get?_eq_some_getD p.1 0 (Value.Eid 0) (by have := hlen p hmem; omega)
        show Option.map (fun v0 => [v0]) (p.1.get? 0) =
          some [p.1.getD 0 (Value.Eid 0)]
        rw [hg]
        rfl)
    simp only [Plan.implement, hbase, hfil, hmap]

/-- Witness for C5 on the `pairs` fixture. -/
theorem match_patterns_implement_witness :
    Plan.implement (.MatchA 0 "pairs" 1) ctxPairs localsNone =
      some ⟨[0, 1], [([Value.Eid 1, Value.VString "x"], 1),
                     ([Value.Eid 2, Value.VString "y"], 2),
                     ([Value.Eid 1, Value.VString "y"], 1)]⟩ ∧
    Plan.implement (.MatchEA 1 "pairs" 2) ctxPairs localsNone =
      some ⟨[2], [([Value.VString "x"], 1), ([Value.VString "y"], 1)]⟩ ∧
    Plan.implement (.MatchAV 3 "pairs" (Value.VString "y")) ctxPairs localsNone =
      some ⟨[3], [([Value.Eid 2], 2), ([Value.Eid 1], 1)]⟩ := by
  have h := match_patterns_implement ctxPairs localsNone "pairs"
    [([Value.Eid 1, Value.VString "x"], 1),
     ([Value.Eid 2, Value.VString "y"], 2),
     ([Value.Eid 1, Value.VString "y"], 1)]
    (by simp [ctxPairs]) (by decide)
  refine ⟨h.1 0 1, (h.2.1 1 2).trans (by decide), (h.2.2 3 (Value.VString "y")).trans (by decide)⟩

theorem joinRow_eq (f : Value → List Value → Value → Option (List Value))
    (g : List Value → Value → List Value)
    (p : (Value × List Value) × Int) :
    ∀ qs : List ((Value × Value) × Int),
      (∀ q ∈ qs, q.1.1 = p.1.1 → f p.1.1 p.1.2 q.1.2 = some (g p.1.2 q.1.2)) →
      joinRow f p qs = some ((qs.filter (fun q => q.1.1 == p.1.1)).map
        (fun q => (g p.1.2 q.1.2, p.2 * q.2))) := by
  intro qs
  induction qs with
  | nil => intro h; simp [joinRow]
  | cons q qs2 ih =>
    intro h
    have hrest := ih (fun r hr hk => h r (by simp [hr]) hk)
    by_cases hk : q.1.1 = p.1.1
    · have hf := h q (by simp) hk
      simp [joinRow, hk, hf, hrest, List.filter_cons]
    · simp [joinRow, hk, hrest, List.filter_cons]

theorem joinCoreM_eq (f : Value → List Value → Value → Option (List Value))
    (g : List Value → Value → List Value) :
    ∀ (ps : List ((Value × List Value) × Int)) (qs : List ((Value × Value) × Int)),
      (∀ p ∈ ps, ∀ q ∈ qs, q.1.1 = p.1.1 → f p.1.1 p.1.2 q.1.2 = some (g p.1.2 q.1.2)) →
      joinCoreM f ps qs = some ((ps.map (fun p =>
        (qs.filter (fun q => q.1.1 == p.1.1)).map
          (fun q => (g p.1.2 q.1.2, p.2 * q.2)))).flatten) := by
  intro ps qs
  induction ps with
  | nil => intro h; simp [joinCoreM]
  | cons p ps2 ih =>
    intro h
    have hrow := joinRow_eq f g p qs (fun q hq hk => h p (by simp) q hq hk)
    have hrest := ih (fun r hr q hq hk => h r (by simp [hr]) q hq hk)
    simp [joinCoreM, hrow, hrest]

theorem pullStreams_eq (ctx : Context) (pas : List Aid)
    (e_path : List ((Value × List Value) × Int))
    (ip : List Value → List Value)
    (hip : ∀ pr ∈ e_path, interleave pr.1.2 pas = some (ip pr.1.2)) :
    ∀ (attrs : List Aid) (idx : Aid → List ((Value × Value) × Int)),
      (∀ b ∈ attrs, ctx.forward_index b = some (idx b)) →
      pullStreams e_path ctx pas attrs =
        some (attrs.map (fun b =>
          (e_path.map (fun pr =>
            ((idx b).filter (fun qr => qr.1.1 == pr.1.1)).map
              (fun qr => (ip pr.1.2 ++ [Value.Aid b, qr.1.2], pr.2 * qr.2)))).flatten)) := by
  intro attrs
  induction attrs with
  | nil => intro idx h; simp [pullStreams]
  | cons b rest ih =>
    intro idx h
    have hb := h b (by simp)
    have hj := joinCoreM_eq
      (fun _e path v => match interleave path pas with
        | none => none
        | some res => some (res ++ [Value.Aid b, v]))
      (fun path v => ip path ++ [Value.Aid b, v])
      e_path (idx b)
      (fun p hp q hq hk => by
        show (match interleave p.1.2 pas with
          | none => none
          | some res => some (res ++ [Value.Aid b, q.1.2])) =
          some (ip p.1.2 ++ [Value.Aid b, q.1.2])
        rw [hip p hp])
    have hrest := ih idx (fun c hc => h c (by simp [hc]))
    simp [pullStreams, hb, hj, hrest]

/-- Claim C2: for a `PullLevel` with a non-empty attribute list, when
the child plan implements, each input tuple has a trailing entity
identifier, every listed attribute's forward index resolves, and
interleaving with the path attributes is defined, the implementation
joins the path arrangement against each forward index by entity key:
every matching (path record, index record) pair contributes exactly one
output row — `interleave(path, path_attributes)` followed by the
attribute identifier (wrapped as an attribute value) and the retrieved
value — at the product of the two multiplicities, and the output
collection is the concatenation of the per-attribute streams. -/
theorem pullLevel_join_shape (vs : List Var) (plan : Plan)
    (a : Aid) (pulls : List Aid) (pas : List Aid)
    (ctx : Context) (locals : Locals) (input : SimpleRelation)
    (e_path : List ((Value × List Value) × Int))
    (idx : Aid → List ((Value × Value) × Int)) (ip : List Value → List Value)
    (hplan : plan.implement ctx locals = some input)
    (harr : arrangeByLast input.tuples = some e_path)
    (hidx : ∀ b ∈ a :: pulls, ctx.forward_index b = some (idx b))
    (hip : ∀ pr ∈ e_path, interleave pr.1.2 pas = some (ip pr.1.2)) :
    Plan.implement (.PullLevel (.mk vs plan (a :: pulls) pas)) ctx locals =
      some ⟨[], ((a :: pulls).map (fun b =>
        (e_path.map (fun pr =>
          ((idx b).filter (fun qr => qr.1.1 == pr.1.1)).map
            (fun qr => (ip pr.1.2 ++ [Value.Aid b, qr.1.2], pr.2 * qr.2)))).flatten)).flatten⟩ := by
  have hps := pullStreams_eq ctx pas e_path ip hip (a :: pulls) idx hidx
  simp only [Plan.implement]
  rw [hplan]
  simp only [List.isEmpty_cons, Bool.false_eq_true, if_false]
  rw [harr]
  simp only [hps]

/-- Witness for C2: the spec's pull-level scenario — input `[[e1]]`,
attribute `name`, forward index `e1 -> "Alice"`, no path attributes —
yields exactly `[e1, Aid "name", "Alice"]`. -/
theorem pullLevel_join_shape_witness :
    Plan.implement (.PullLevel (.mk [] (.NameExpr [0] "input") ["name"] []))
      ctxAlice localsNone =
      some ⟨[], [([Value.Eid 1, Value.Aid "name", Value.VString "Alice"], 1)]⟩ := by
  have h := pullLevel_join_shape [] (.NameExpr [0] "input") "name" [] []
    ctxAlice localsNone ⟨[0], [([Value.Eid 1], 1)]⟩
    [((Value.Eid 1, [Value.Eid 1]), 1)]
    (fun _ => [((Value.Eid 1, Value.VString "Alice"), 1)])
    id
    (by simp [Plan.implement, ctxAlice])
    (by simp [arrangeByLast])
    (by intro b hb; simp at hb; subst hb; simp [ctxAlice])
    (by intro pr hpr; simp at hpr; subst hpr; decide)
  exact h.trans (by decide)

theorem arrangeByLast_eq :
    ∀ c : Collection, (∀ p ∈ c, p.1 ≠ []) →
      arrangeByLast c =
        some (c.map (fun p => ((p.1.getLastD (Value.Eid 0), p.1), p.2))) := by
  intro c
  induction c with
  | nil => intro h; simp [arrangeByLast]
  | cons p ps ih =>
    intro h
    have hp : p.1 ≠ [] := h p (by simp)
    have hlast : p.1.getLast? = some (p.1.getLastD (Value.Eid 0)) := by
      cases hx : p.1.getLast? with
      | none => exact absurd (List.getLast?_eq_none_iff.mp hx) hp
      | some x => simp [List.getLastD_eq_getLast?, hx]
    simp only [arrangeByLast]
    rw [hlast, ih (fun q hq => h q (by simp [hq]))]
    simp only [List.map_cons]

/-- Claim C10: the keying step of a `PullLevel` with pull attributes
keys every input tuple by its last element; when every input tuple is
non-empty the keying is defined (the error branch of taking the last
element is unreachable), whereas an input containing an empty tuple
aborts the whole implementation (the `unwrap` of the absent last
element fails). -/
theorem keying_by_last (c : Collection) :
    ((∀ p ∈ c, p.1 ≠ []) →
      arrangeByLast c =
        some (c.map (fun p => ((p.1.getLastD (Value.Eid 0), p.1), p.2)))) ∧
    Plan.implement (.PullLevel (.mk [] (.NameExpr [0] "badinput") ["name"] []))
      ctxBad localsNone = none := by
  refine ⟨arrangeByLast_eq c, ?_⟩
  simp [Plan.implement, ctxBad, localsNone, arrangeByLast]

/-- Witness for C10 at a concrete non-empty-tuple collection. -/
theorem keying_by_last_witness :
    arrangeByLast [([Value.Eid 1, Value.VString "x"], 1)] =
      some [((Value.VString "x", [Value.Eid 1, Value.VString "x"]), 1)] := by
  have h := (keying_by_last [([Value.Eid 1, Value.VString "x"], 1)]).1 (by decide)
  exact h.trans (by decide)
